import Mathlib

/-!
Shallow embedding of the resumable-download coordinator of
`src/routes/movies/download.ts` and the progress endpoint of
`src/routes/movies/download_success.ts`, together with proofs about the
embedded code.

Conventions of the embedding:
* JavaScript numbers that are known integral byte offsets are modelled as
  `Int`; `parseInt` results that may be `NaN` are modelled as `Option Int`
  with `none` standing for `NaN`.
* The floating point comparison `(totalBytes / fileSize) * 100 >= 99.9`
  of `isFullyCovered` is modelled by the exact rational inequality
  `1000 * totalBytes ≥ 999 * fileSize` (equivalent over the reals for
  `fileSize > 0`).  At every concrete input used in a theorem below the
  IEEE-754 double evaluation agrees with the exact rational one (checked
  separately; in particular `(999/1000)*100` evaluates to exactly the
  double nearest `99.9`, so `>= 99.9` holds there in doubles as well).
* MongoDB documents of the `movie_links` collection are modelled by the
  structure `MovieDoc`; `updateOne {token} {$set ...}` becomes a record
  update, `findOne` a lookup of the current `Option MovieDoc`.
-/

namespace Heuried

/-- An inclusive byte interval `{start, end}` as used throughout
`download.ts` (the field `end` is a Lean keyword, so it is called `stop`
here). -/
structure ByteRange where
  start : Int
  stop : Int
deriving DecidableEq, Repr, Inhabited

/-- Insertion into a list sorted by `start`; used to model the JavaScript
`ranges.sort((a, b) => a.start - b.start)` (a stable comparison sort by
starting offset). -/
def insertRange (r : ByteRange) : List ByteRange → List ByteRange
  | [] => [r]
  | x :: xs => if r.start ≤ x.start then r :: x :: xs else x :: insertRange r xs

/-- Sorting by starting offset, modelling `ranges.sort((a, b) => a.start - b.start)`
in `mergeRanges` (`download.ts` line 16). -/
def sortRanges : List ByteRange → List ByteRange
  | [] => []
  | x :: xs => insertRange x (sortRanges xs)

/-- The merging loop of `mergeRanges` (`download.ts` lines 18-31): `current`
is the accumulator; a following range is merged into `current` when it
overlaps or is adjacent (`range.start <= current.end + 1`), otherwise
`current` is emitted and the following range becomes the new accumulator. -/
def mergeLoop (current : ByteRange) : List ByteRange → List ByteRange
  | [] => [current]
  | r :: rest =>
    if r.start ≤ current.stop + 1 then
      mergeLoop ⟨current.start, max current.stop r.stop⟩ rest
    else
      current :: mergeLoop r rest

/-- `mergeRanges` of `download.ts` (lines 12-33): sort by starting offset,
then merge overlapping or adjacent segments. -/
def mergeRanges (ranges : List ByteRange) : List ByteRange :=
  match sortRanges ranges with
  | [] => []
  | x :: xs => mergeLoop x xs

/-- `totalBytesDownloaded` of `download.ts` (lines 36-40):
`ranges.reduce((total, range) => total + (range.end - range.start + 1), 0)`. -/
def totalBytesDownloaded (ranges : List ByteRange) : Int :=
  ranges.foldl (fun total range => total + (range.stop - range.start + 1)) 0

/-- The gap-scanning third check of `isFullyCovered` (`download.ts`
lines 65-71): walk the merged list keeping `currentEnd`, fail on a gap,
succeed when the final `currentEnd` reaches `fileSize - 1`. -/
def gapScan (fileSize : Int) (currentEnd : Int) : List ByteRange → Bool
  | [] => currentEnd ≥ fileSize - 1
  | r :: rest =>
    if r.start > currentEnd + 1 then false else gapScan fileSize (max currentEnd r.stop) rest

/-- `isFullyCovered` of `download.ts` (lines 43-75).  First the percentage
heuristic (`>= 99.9` percent, modelled exactly, see the file comment), then
the single-range check, then the gap scan. -/
def isFullyCovered (ranges : List ByteRange) (fileSize : Int) : Bool :=
  let merged := mergeRanges ranges
  let totalBytes := totalBytesDownloaded merged
  if 1000 * totalBytes ≥ 999 * fileSize then true
  else if merged.length = 1 ∧ (merged.headI).start = 0 ∧ (merged.headI).stop ≥ fileSize - 1 then true
  else
    match merged with
    | [] => false
    | m :: rest => if m.start ≠ 0 then false else gapScan fileSize m.stop rest

/-- A byte offset `x` lies in the inclusive interval `r`. -/
def covers (r : ByteRange) (x : Int) : Prop := r.start ≤ x ∧ x ≤ r.stop

/-- Some interval of `l` contains the byte offset `x`; the set of such `x`
is the byte set recorded by a coverage list. -/
def coveredBy (l : List ByteRange) (x : Int) : Prop := ∃ r ∈ l, covers r x

/-- Every interval of the list is well-formed (`start ≤ end`). -/
def Valid (l : List ByteRange) : Prop := ∀ r ∈ l, r.start ≤ r.stop

/-- The separation condition of the CoverageSet invariant: `a` ends strictly
before `b` starts, with at least one uncovered byte in between
(`a.end + 1 < b.start`: no overlap, no adjacency). -/
def sep (a b : ByteRange) : Prop := a.stop + 1 < b.start

/-- A canonical coverage list: well-formed intervals, consecutive elements
separated (hence sorted, pairwise disjoint and non-adjacent). -/
def Canonical (l : List ByteRange) : Prop := Valid l ∧ l.Chain' sep

instance (l : List ByteRange) : Decidable (Valid l) :=
  show Decidable (∀ r ∈ l, r.start ≤ r.stop) from
    List.decidableBAll (fun r : ByteRange => r.start ≤ r.stop) l

lemma coveredBy_nil (x : Int) : ¬ coveredBy [] x := by
  rintro ⟨r, hr, -⟩
  exact List.not_mem_nil r hr

lemma coveredBy_cons {a : ByteRange} {l : List ByteRange} {x : Int} :
    coveredBy (a :: l) x ↔ covers a x ∨ coveredBy l x := by
  constructor
  · rintro ⟨r, hr, hc⟩
    rcases List.mem_cons.mp hr with h | h
    · exact Or.inl (h ▸ hc)
    · exact Or.inr ⟨r, h, hc⟩
  · rintro (h | ⟨r, hr, hc⟩)
    · exact ⟨a, List.mem_cons_self a l, h⟩
    · exact ⟨r, List.mem_cons_of_mem a hr, hc⟩

lemma mem_insertRange {a r : ByteRange} {l : List ByteRange} :
    a ∈ insertRange r l ↔ a = r ∨ a ∈ l := by
  induction l with
  | nil => simp [insertRange]
  | cons x xs ih =>
    by_cases h : r.start ≤ x.start <;>
      simp [insertRange, h, ih, List.mem_cons] <;> tauto

lemma mem_sortRanges {a : ByteRange} {l : List ByteRange} :
    a ∈ sortRanges l ↔ a ∈ l := by
  induction l with
  | nil => simp [sortRanges]
  | cons x xs ih => simp [sortRanges, mem_insertRange, ih, List.mem_cons]

/-- Sorting order of `mergeRanges`: non-decreasing starting offsets. -/
def startLE (a b : ByteRange) : Prop := a.start ≤ b.start

lemma pairwise_insertRange {r : ByteRange} {l : List ByteRange}
    (h : l.Pairwise startLE) : (insertRange r l).Pairwise startLE := by
  induction l with
  | nil => simp [insertRange, List.pairwise_singleton]
  | cons x xs ih =>
    rcases List.pairwise_cons.mp h with ⟨hx, hxs⟩
    by_cases hc : r.start ≤ x.start
    · simp only [insertRange, if_pos hc]
      refine List.pairwise_cons.mpr ⟨?_, h⟩
      intro b hb
      rcases List.mem_cons.mp hb with rfl | hb
      · exact hc
      · exact le_trans hc (hx b hb)
    · simp only [insertRange, if_neg hc]
      refine List.pairwise_cons.mpr ⟨?_, ih hxs⟩
      intro b hb
      rcases mem_insertRange.mp hb with rfl | hb
      · exact le_of_not_le hc
      · exact hx b hb

lemma pairwise_sortRanges (l : List ByteRange) : (sortRanges l).Pairwise startLE := by
  induction l with
  | nil => simp [sortRanges]
  | cons x xs ih =>
    rw [sortRanges]
    exact pairwise_insertRange ih

lemma covers_merge {c r : ByteRange} (hc : c.start ≤ c.stop) (hr : r.start ≤ r.stop)
    (hle : c.start ≤ r.start) (hadj : r.start ≤ c.stop + 1) (x : Int) :
    covers ⟨c.start, max c.stop r.stop⟩ x ↔ covers c x ∨ covers r x := by
  simp only [covers, le_max_iff]
  omega

lemma mergeLoop_coveredBy :
    ∀ (rest : List ByteRange) (c : ByteRange), c.start ≤ c.stop → Valid rest →
      (∀ r ∈ rest, c.start ≤ r.start) → rest.Pairwise startLE →
      ∀ x, coveredBy (mergeLoop c rest) x ↔ covers c x ∨ coveredBy rest x := by
  intro rest
  induction rest with
  | nil =>
    intro c hc _ _ _ x
    rw [mergeLoop, coveredBy_cons]
  | cons r rest ih =>
    intro c hc hv hs hp x
    have hr : r.start ≤ r.stop := hv r (List.mem_cons_self r rest)
    have hv' : Valid rest := fun a ha => hv a (List.mem_cons_of_mem r ha)
    rcases List.pairwise_cons.mp hp with ⟨hrs, hp'⟩
    by_cases hadj : r.start ≤ c.stop + 1
    · rw [mergeLoop, if_pos hadj]
      rw [ih ⟨c.start, max c.stop r.stop⟩ (le_trans hc (le_max_left _ _)) hv'
        (fun a ha => le_trans (hs r (List.mem_cons_self r rest)) (hrs a ha)) hp' x]
      rw [covers_merge hc hr (hs r (List.mem_cons_self r rest)) hadj, coveredBy_cons, or_assoc]
    · rw [mergeLoop, if_neg hadj]
      rw [coveredBy_cons, ih r hr hv' hrs hp' x, coveredBy_cons]

lemma mergeLoop_head_start :
    ∀ (rest : List ByteRange) (c : ByteRange),
      ((mergeLoop c rest).head?).map ByteRange.start = some c.start := by
  intro rest
  induction rest with
  | nil => intro c; rw [mergeLoop]; rfl
  | cons r rest ih =>
    intro c
    by_cases hadj : r.start ≤ c.stop + 1
    · rw [mergeLoop, if_pos hadj]
      exact ih ⟨c.start, max c.stop r.stop⟩
    · rw [mergeLoop, if_neg hadj]
      rfl

lemma mergeLoop_canonical :
    ∀ (rest : List ByteRange) (c : ByteRange), c.start ≤ c.stop → Valid rest →
      (∀ r ∈ rest, c.start ≤ r.start) → rest.Pairwise startLE →
      Canonical (mergeLoop c rest) := by
  intro rest
  induction rest with
  | nil =>
    intro c hc _ _ _
    rw [mergeLoop]
    constructor
    · intro a ha
      rcases List.mem_singleton.mp ha with rfl
      exact hc
    · exact List.chain'_singleton c
  | cons r rest ih =>
    intro c hc hv hs hp
    have hr : r.start ≤ r.stop := hv r (List.mem_cons_self r rest)
    have hv' : Valid rest := fun a ha => hv a (List.mem_cons_of_mem r ha)
    rcases List.pairwise_cons.mp hp with ⟨hrs, hp'⟩
    by_cases hadj : r.start ≤ c.stop + 1
    · rw [mergeLoop, if_pos hadj]
      exact ih ⟨c.start, max c.stop r.stop⟩ (le_trans hc (le_max_left _ _)) hv'
        (fun a ha => le_trans (hs r (List.mem_cons_self r rest)) (hrs a ha)) hp'
    · rw [mergeLoop, if_neg hadj]
      have hM := ih r hr hv' hrs hp'
      constructor
      · intro a ha
        rcases List.mem_cons.mp ha with rfl | ha
        · exact hc
        · exact hM.1 a ha
      · refine List.chain'_cons'.mpr ⟨?_, hM.2⟩
        intro y hy
        have hhead := mergeLoop_head_start rest r
        rw [Option.mem_def] at hy
        rw [hy] at hhead
        simp only [Option.map_some'] at hhead
        have hys : y.start = r.start := Option.some.inj hhead
        simp only [sep, hys]
        omega

lemma coveredBy_sortRanges {l : List ByteRange} {x : Int} :
    coveredBy (sortRanges l) x ↔ coveredBy l x := by
  constructor
  · rintro ⟨r, hr, hc⟩
    exact ⟨r, mem_sortRanges.mp hr, hc⟩
  · rintro ⟨r, hr, hc⟩
    exact ⟨r, mem_sortRanges.mpr hr, hc⟩

lemma mergeRanges_match (l : List ByteRange) :
    mergeRanges l = match sortRanges l with
      | [] => []
      | x :: xs => mergeLoop x xs := rfl

theorem mergeRanges_coveredBy (l : List ByteRange) (hv : Valid l) (x : Int) :
    coveredBy (mergeRanges l) x ↔ coveredBy l x := by
  have hcov : coveredBy (sortRanges l) x ↔ coveredBy l x := coveredBy_sortRanges
  have hvS : Valid (sortRanges l) := fun r hr => hv r (mem_sortRanges.mp hr)
  have hpS := pairwise_sortRanges l
  rw [mergeRanges_match]
  cases hs : sortRanges l with
  | nil =>
    rw [hs] at hcov
    exact hcov
  | cons a xs =>
    rw [hs] at hcov hvS hpS
    rcases List.pairwise_cons.mp hpS with ⟨ha, hxs⟩
    rw [mergeLoop_coveredBy xs a (hvS a (List.mem_cons_self a xs))
      (fun r hr => hvS r (List.mem_cons_of_mem a hr)) ha hxs x]
    rw [← coveredBy_cons]
    exact hcov

theorem mergeRanges_canonical (l : List ByteRange) (hv : Valid l) :
    Canonical (mergeRanges l) := by
  have hvS : Valid (sortRanges l) := fun r hr => hv r (mem_sortRanges.mp hr)
  have hpS := pairwise_sortRanges l
  rw [mergeRanges_match]
  cases hs : sortRanges l with
  | nil =>
    exact ⟨fun r hr => absurd hr (List.not_mem_nil r), List.chain'_nil⟩
  | cons a xs =>
    rw [hs] at hvS hpS
    rcases List.pairwise_cons.mp hpS with ⟨ha, hxs⟩
    exact mergeLoop_canonical xs a (hvS a (List.mem_cons_self a xs))
      (fun r hr => hvS r (List.mem_cons_of_mem a hr)) ha hxs

lemma canonical_tail {a : ByteRange} {t : List ByteRange} (h : Canonical (a :: t)) :
    Canonical t :=
  ⟨fun r hr => h.1 r (List.mem_cons_of_mem a hr), h.2.tail⟩

lemma canonical_sep_all :
    ∀ (t : List ByteRange) (a : ByteRange), Canonical (a :: t) → ∀ r ∈ t, sep a r := by
  intro t
  induction t with
  | nil =>
    intro a _ r hr
    exact absurd hr (List.not_mem_nil r)
  | cons b t ih =>
    intro a h r hr
    rcases List.chain'_cons.mp h.2 with ⟨hab, hbt⟩
    have hb : Canonical (b :: t) := ⟨fun s hs => h.1 s (List.mem_cons_of_mem a hs), hbt⟩
    rcases List.mem_cons.mp hr with rfl | hr
    · exact hab
    · have hbr := ih b hb r hr
      have hvb : b.start ≤ b.stop := h.1 b (List.mem_cons_of_mem a (List.mem_cons_self b t))
      simp only [sep] at hab hbr ⊢
      omega

lemma canonical_lower {a : ByteRange} {t : List ByteRange} {x : Int}
    (h : Canonical (a :: t)) (hx : coveredBy (a :: t) x) : a.start ≤ x := by
  rcases coveredBy_cons.mp hx with hc | ⟨r, hr, hc⟩
  · exact hc.1
  · have hs := canonical_sep_all t a h r hr
    have hv := h.1 a (List.mem_cons_self a t)
    simp only [sep] at hs
    rcases hc with ⟨h1, h2⟩
    omega

lemma canonical_not_succ {a : ByteRange} {t : List ByteRange}
    (h : Canonical (a :: t)) : ¬ coveredBy (a :: t) (a.stop + 1) := by
  intro hx
  rcases coveredBy_cons.mp hx with hc | ⟨r, hr, hc⟩
  · rcases hc with ⟨h1, h2⟩
    omega
  · have hs := canonical_sep_all t a h r hr
    simp only [sep] at hs
    rcases hc with ⟨h1, h2⟩
    omega

/-- Canonical coverage lists are determined by the byte set they cover:
the minimal sorted disjoint non-adjacent representation is unique. -/
theorem canonical_eq_of_coveredBy :
    ∀ (l₁ l₂ : List ByteRange), Canonical l₁ → Canonical l₂ →
      (∀ x, coveredBy l₁ x ↔ coveredBy l₂ x) → l₁ = l₂ := by
  intro l₁
  induction l₁ with
  | nil =>
    intro l₂ _ h₂ hcov
    cases l₂ with
    | nil => rfl
    | cons b t₂ =>
      exfalso
      have hb : coveredBy (b :: t₂) b.start :=
        coveredBy_cons.mpr (Or.inl ⟨le_refl _, h₂.1 b (List.mem_cons_self b t₂)⟩)
      exact coveredBy_nil b.start ((hcov b.start).mpr hb)
  | cons a t₁ ih =>
    intro l₂ h₁ h₂ hcov
    have hva : a.start ≤ a.stop := h₁.1 a (List.mem_cons_self a t₁)
    cases l₂ with
    | nil =>
      exfalso
      have ha : coveredBy (a :: t₁) a.start :=
        coveredBy_cons.mpr (Or.inl ⟨le_refl _, hva⟩)
      exact coveredBy_nil a.start ((hcov a.start).mp ha)
    | cons b t₂ =>
      have hvb : b.start ≤ b.stop := h₂.1 b (List.mem_cons_self b t₂)
      have hstart : a.start = b.start := by
        have h1 : b.start ≤ a.start :=
          canonical_lower h₂ ((hcov a.start).mp (coveredBy_cons.mpr (Or.inl ⟨le_refl _, hva⟩)))
        have h2 : a.start ≤ b.start :=
          canonical_lower h₁ ((hcov b.start).mpr (coveredBy_cons.mpr (Or.inl ⟨le_refl _, hvb⟩)))
        omega
      have hstop : a.stop = b.stop := by
        rcases lt_trichotomy a.stop b.stop with h | h | h
        · exfalso
          refine canonical_not_succ h₁ ((hcov _).mpr (coveredBy_cons.mpr (Or.inl ?_)))
          exact ⟨by omega, by omega⟩
        · exact h
        · exfalso
          refine canonical_not_succ h₂ ((hcov _).mp (coveredBy_cons.mpr (Or.inl ?_)))
          exact ⟨by omega, by omega⟩
      have hab : a = b := by
        obtain ⟨as, ae⟩ := a
        obtain ⟨bs, be⟩ := b
        simp only at hstart hstop
        rw [hstart, hstop]
      have hcovt : ∀ x, coveredBy t₁ x ↔ coveredBy t₂ x := by
        intro x
        constructor
        · intro hx
          obtain ⟨r, hr, hc⟩ := hx
          have hsr := canonical_sep_all t₁ a h₁ r hr
          simp only [sep] at hsr
          obtain ⟨hc1, hc2⟩ := hc
          have hx2 : coveredBy (b :: t₂) x :=
            (hcov x).mp (coveredBy_cons.mpr (Or.inr ⟨r, hr, hc1, hc2⟩))
          rcases coveredBy_cons.mp hx2 with hcb | ht
          · exfalso
            obtain ⟨hb1, hb2⟩ := hcb
            omega
          · exact ht
        · intro hx
          obtain ⟨r, hr, hc⟩ := hx
          have hsr := canonical_sep_all t₂ b h₂ r hr
          simp only [sep] at hsr
          obtain ⟨hc1, hc2⟩ := hc
          have hx2 : coveredBy (a :: t₁) x :=
            (hcov x).mpr (coveredBy_cons.mpr (Or.inr ⟨r, hr, hc1, hc2⟩))
          rcases coveredBy_cons.mp hx2 with hcb | ht
          · exfalso
            obtain ⟨hb1, hb2⟩ := hcb
            omega
          · exact ht
      rw [hab, ih t₂ (canonical_tail h₁) (canonical_tail h₂) hcovt]

/-- `mergeRanges` depends only on the covered byte set: two valid coverage
lists covering the same bytes merge to the same canonical list. -/
theorem mergeRanges_congr {l₁ l₂ : List ByteRange} (hv₁ : Valid l₁) (hv₂ : Valid l₂)
    (h : ∀ x, coveredBy l₁ x ↔ coveredBy l₂ x) : mergeRanges l₁ = mergeRanges l₂ :=
  canonical_eq_of_coveredBy _ _ (mergeRanges_canonical _ hv₁) (mergeRanges_canonical _ hv₂)
    (fun x => ((mergeRanges_coveredBy _ hv₁ x).trans
      ((h x).trans (mergeRanges_coveredBy _ hv₂ x).symm)))

lemma coveredBy_of_mem_iff {l₁ l₂ : List ByteRange}
    (h : ∀ r : ByteRange, r ∈ l₁ ↔ r ∈ l₂) (x : Int) :
    coveredBy l₁ x ↔ coveredBy l₂ x := by
  constructor
  · rintro ⟨r, hr, hc⟩
    exact ⟨r, (h r).mp hr, hc⟩
  · rintro ⟨r, hr, hc⟩
    exact ⟨r, (h r).mpr hr, hc⟩

lemma canonical_pairwise_sep :
    ∀ (l : List ByteRange), Canonical l → l.Pairwise sep := by
  intro l
  induction l with
  | nil =>
    intro _
    exact List.Pairwise.nil
  | cons a t ih =>
    intro h
    exact List.pairwise_cons.mpr ⟨canonical_sep_all t a h, ih (canonical_tail h)⟩

/-- C7: `mergeRanges` (the CoverageSet `Add`/merge of `download.ts`) is
order-independent (permuting the input does not change the output) and
idempotent (re-adding a range already present does not change the output);
its output is always a list of well-formed intervals that is pairwise
separated (`a.end + 1 < b.start` for `a` before `b`, hence sorted, disjoint
and non-adjacent); and on the concrete inputs `[0,499]`, `[500,999]`,
`[0,499]` again it yields exactly `[[0,999]]` with a total of 1000 covered
bytes. -/
theorem mergeRanges_addProperties
    (l₁ l₂ : List ByteRange) (r : ByteRange)
    (hv : Valid l₁) (hp : l₁.Perm l₂) (hr : r ∈ l₁) :
    mergeRanges l₂ = mergeRanges l₁ ∧
    mergeRanges (l₁ ++ [r]) = mergeRanges l₁ ∧
    Valid (mergeRanges l₁) ∧
    (mergeRanges l₁).Pairwise sep ∧
    mergeRanges [⟨0, 499⟩, ⟨500, 999⟩, ⟨0, 499⟩] = [⟨0, 999⟩] ∧
    totalBytesDownloaded (mergeRanges [⟨0, 499⟩, ⟨500, 999⟩, ⟨0, 499⟩]) = 1000 := by
  have hv₂ : Valid l₂ := fun a ha => hv a (hp.mem_iff.mpr ha)
  have hmem : ∀ s : ByteRange, s ∈ l₁ ++ [r] ↔ s ∈ l₁ := by
    intro s
    rw [List.mem_append, List.mem_singleton]
    constructor
    · rintro (h | rfl)
      · exact h
      · exact hr
    · exact Or.inl
  have hvapp : Valid (l₁ ++ [r]) := fun s hs => hv s ((hmem s).mp hs)
  refine ⟨?_, ?_, ?_, ?_, by decide, by decide⟩
  · exact mergeRanges_congr hv₂ hv
      (coveredBy_of_mem_iff (fun s => (hp.mem_iff (a := s)).symm))
  · exact mergeRanges_congr hvapp hv (coveredBy_of_mem_iff hmem)
  · exact (mergeRanges_canonical l₁ hv).1
  · exact canonical_pairwise_sep _ (mergeRanges_canonical l₁ hv)

theorem mergeRanges_addProperties_witness :
    mergeRanges [⟨500, 999⟩, ⟨0, 499⟩, ⟨0, 499⟩] =
      mergeRanges [⟨0, 499⟩, ⟨500, 999⟩, ⟨0, 499⟩] ∧
    mergeRanges ([⟨0, 499⟩, ⟨500, 999⟩, ⟨0, 499⟩] ++ [⟨0, 499⟩]) =
      mergeRanges [⟨0, 499⟩, ⟨500, 999⟩, ⟨0, 499⟩] ∧
    Valid (mergeRanges [⟨0, 499⟩, ⟨500, 999⟩, ⟨0, 499⟩]) ∧
    (mergeRanges [⟨0, 499⟩, ⟨500, 999⟩, ⟨0, 499⟩]).Pairwise sep ∧
    mergeRanges [⟨0, 499⟩, ⟨500, 999⟩, ⟨0, 499⟩] = [⟨0, 999⟩] ∧
    totalBytesDownloaded (mergeRanges [⟨0, 499⟩, ⟨500, 999⟩, ⟨0, 499⟩]) = 1000 :=
  mergeRanges_addProperties
    ([⟨0, 499⟩, ⟨500, 999⟩, ⟨0, 499⟩] : List ByteRange)
    ([⟨500, 999⟩, ⟨0, 499⟩, ⟨0, 499⟩] : List ByteRange)
    (⟨0, 499⟩ : ByteRange)
    (by decide)
    (List.Perm.swap (⟨500, 999⟩ : ByteRange) (⟨0, 499⟩ : ByteRange)
      ([⟨0, 499⟩] : List ByteRange))
    (by decide)

/-- C2: `isFullyCovered` is NOT exact — it applies the `>= 99.9` percent
threshold of `download.ts` lines 49-54.  On a 1000-byte resource the
coverage `[[0,998]]` (999 of 1000 bytes, exactly 99.9 percent; the IEEE-754
double evaluation of `(999/1000)*100 >= 99.9` agrees) yields `true`, and so
does `[[1,999]]`, both contradicting the claimed exactness; on a 10000-byte
resource `[[0,9990]]` (99.91 percent, far from any rounding boundary) also
yields `true` although the merged ranges are not `[[0, 9999]]`. -/
theorem isFullyCovered_threshold_not_exact :
    isFullyCovered [⟨0, 998⟩] 1000 = true ∧
    mergeRanges [⟨0, 998⟩] ≠ [⟨0, 999⟩] ∧
    isFullyCovered [⟨1, 999⟩] 1000 = true ∧
    mergeRanges [⟨1, 999⟩] ≠ [⟨0, 999⟩] ∧
    isFullyCovered [⟨0, 9990⟩] 10000 = true ∧
    mergeRanges [⟨0, 9990⟩] ≠ [⟨0, 9999⟩] ∧
    isFullyCovered [⟨0, 999⟩] 1000 = true := by decide

/-- C10: an empty coverage list is never judged complete: for every file
size `L > 0`, `isFullyCovered [] L = false` (the percentage of 0 bytes is
below the threshold and all structural checks fail on the empty merged
list) and `mergeRanges [] = []`. -/
theorem isFullyCovered_empty_false (L : Int) (hL : 0 < L) :
    isFullyCovered [] L = false ∧ mergeRanges ([] : List ByteRange) = [] := by
  refine ⟨?_, rfl⟩
  unfold isFullyCovered
  have h0 : mergeRanges ([] : List ByteRange) = [] := rfl
  rw [h0]
  simp only [totalBytesDownloaded, List.foldl_nil, List.length_nil]
  rw [if_neg (by omega), if_neg (by simp)]

theorem isFullyCovered_empty_false_witness :
    isFullyCovered [] 1000 = false ∧ mergeRanges ([] : List ByteRange) = [] :=
  isFullyCovered_empty_false 1000 (by decide)

/-! ## The persisted token record and the HTTP handlers -/

/-- A JavaScript number that may be `NaN` (`none` stands for `NaN`). -/
abbrev JSNum := Option Int

/-- `Math.min`; `NaN` is absorbing, as in JavaScript. -/
def jsMin (a b : JSNum) : JSNum :=
  match a, b with
  | some a, some b => some (min a b)
  | _, _ => none

/-- Value of a non-empty leading digit string, `none` when there is no
leading digit. -/
def parseDigits (cs : List Char) : Option Nat :=
  let ds := cs.takeWhile Char.isDigit
  if ds.isEmpty then none
  else some (ds.foldl (fun n c => n * 10 + (c.toNat - 48)) 0)

/-- `parseInt(s, 10)`: skip leading spaces, optional sign, then the longest
digit run; `NaN` (`none`) when no digit follows. -/
def jsParseInt (s : String) : JSNum :=
  let cs := s.toList.dropWhile (fun c => c = ' ')
  match cs with
  | '-' :: rest => (parseDigits rest).map (fun n => -(n : Int))
  | '+' :: rest => (parseDigits rest).map (fun n => (n : Int))
  | _ => (parseDigits cs).map (fun n => (n : Int))

/-- `rangeHeader.replace(/bytes=/, "")` for headers that begin with
`bytes=` or do not contain it at all (the only shapes a Range header
takes). -/
def stripBytes (s : String) : String :=
  let cs := s.toList
  if cs.take 6 = "bytes=".toList then String.mk (cs.drop 6) else s

def splitDashAux : List Char → List Char → List (List Char)
  | [], acc => [acc.reverse]
  | c :: cs, acc =>
    if c = '-' then acc.reverse :: splitDashAux cs [] else splitDashAux cs (c :: acc)

/-- `s.split("-")`. -/
def splitDash (s : String) : List String :=
  (splitDashAux s.toList []).map (fun cs => String.mk cs)

/-- The range parsing of `download.ts` lines 202-204:
`const [startStr, endStr] = rangeHeader.replace(/bytes=/, "").split("-")`,
`start = parseInt(startStr, 10)`,
`end = endStr ? parseInt(endStr, 10) : fileSize - 1` (an absent or empty
`endStr` is falsy).  Returns `(start, end)`. -/
def parseRangeHeader (h : String) (fileSize : Int) : JSNum × JSNum :=
  let parts := splitDash (stripBytes h)
  let startStr := parts.headD ""
  let endStr? := parts[1]?
  let start := jsParseInt startStr
  let endv : JSNum :=
    match endStr? with
    | none => some (fileSize - 1)
    | some e => if e = "" then some (fileSize - 1) else jsParseInt e
  (start, endv)

/-- The persisted `movie_links` document, with the fields `download.ts` and
`download_success.ts` read or `$set`.  Timestamps (`downloadedAt`,
`errorAt`) are abstract instants (`Int`); `none` models both an absent
field and a `null` value.  There is no `notifiedAt` field anywhere in the
source. -/
structure MovieDoc where
  email : String
  locked : Bool
  downloadedAt : Option Int
  partialRanges : Option (List ByteRange)
  progress : Option JSNum
  errorAt : Option Int
deriving DecidableEq, Repr

/-- The part of an HTTP response the claims talk about: status code, the
`error` field of a JSON body, and the `(start, safeEnd, fileSize)` triple
of a `Content-Range: bytes start-safeEnd/fileSize` header. -/
structure HttpResponse where
  status : Nat
  error : Option String
  contentRange : Option (JSNum × JSNum × Int)
deriving DecidableEq, Repr

/-- The request phase of `download.ts` `OnRequest` (lines 119-219), up to
and including the response head: token check, completed check, existence
check, lock check, file lookup, the `locked := true` write (line 167), the
`partialRanges` initialisation (lines 177-180), and the branch on the
Range header (206 head with `Content-Range` at lines 213-219, or the plain
200 full-download head).  Returns the response head and the persisted
record after this phase. -/
def onRequestPhase (token? : Option String) (doc? : Option MovieDoc)
    (fileFound : Bool) (fileSize : Int) (rangeHeader : Option String) :
    HttpResponse × Option MovieDoc :=
  match token? with
  | none => (⟨400, some "NO_TOKEN", none⟩, doc?)
  | some t =>
    if t = "" then (⟨400, some "NO_TOKEN", none⟩, doc?)
    else if (doc?.bind (fun d => d.downloadedAt)).isSome then
      (⟨403, some "DOWNLOAD_ALREADY_COMPLETED", none⟩, doc?)
    else
      match doc? with
      | none => (⟨400, some "TOKEN_INVALID", none⟩, none)
      | some doc =>
        if doc.locked then
          (⟨400, some "DOWNLOAD_IN_PROGRESS", none⟩, some doc)
        else if !fileFound then
          (⟨500, some "MOVIE_FILE_NOT_FOUND", none⟩, some doc)
        else
          let doc1 := { doc with locked := true }
          let doc2 :=
            match doc1.partialRanges with
            | none => { doc1 with partialRanges := some [] }
            | some _ => doc1
          match rangeHeader with
          | some h =>
            let p := parseRangeHeader h fileSize
            let safeEnd := jsMin p.2 (some (fileSize - 1))
            (⟨206, none, some (p.1, safeEnd, fileSize)⟩, some doc2)
          | none => (⟨200, none, none⟩, some doc2)

/-- The `res.on("finish")` handler of the range branch (`download.ts`
lines 228-297): re-fetch the document, push the REQUESTED range
`{start, end: safeEnd}` (line 239), merge, persist the merged ranges, then
either mark completed (set `downloadedAt`, keep `locked`) and attempt the
email (counted in the second component), or unlock.  `bytesFlushed` is the
number of bytes the transport confirmed sent; the handler has it in scope
(as `bytesStreamed`, counted from file-read events) but never uses it. -/
def onFinishRange (start safeEnd : Int) (bytesFlushed : Int) (fileSize : Int)
    (docNow? : Option MovieDoc) (now : Int) : Option MovieDoc × Nat :=
  match docNow? with
  | none => (none, 0)
  | some docNow =>
    let existingRanges := docNow.partialRanges.getD []
    let withNew := existingRanges ++ [⟨start, safeEnd⟩]
    let mergedRanges := mergeRanges withNew
    let docUpdated := { docNow with partialRanges := some mergedRanges }
    if isFullyCovered mergedRanges fileSize then
      (some { docUpdated with downloadedAt := some now, locked := true }, 1)
    else
      (some { docUpdated with locked := false }, 0)

/-- The `req.on("close")` handler (`download.ts` lines 183-198): when the
download was not flagged successful, set `locked := false`; nothing else is
written (in particular no delivered sub-range is recorded). -/
def onClientClose (downloadSuccessful : Bool) (doc? : Option MovieDoc) :
    Option MovieDoc :=
  if downloadSuccessful then doc?
  else
    match doc? with
    | none => none
    | some d => some { d with locked := false }

/-- `lodash.clamp` on a possibly-`NaN` number (`clamp(NaN, lo, hi)` is
`NaN`). -/
def jsClamp (x : JSNum) (lo hi : Int) : JSNum :=
  x.map (fun v => min (max v lo) hi)

/-- The `/movies/progress` handler of `download_success.ts` `OnRequest`
(lines 23-86): missing/empty parameters give 400; `progress=100` sets
`locked:false, downloadedAt:now, progress:100`, re-fetches and — whenever
the document exists — attempts the completion email (counted in the middle
component), with no guard on a previous completion or notification;
`progress=-1` sets `locked:false, progress:-1, downloadedAt:null,
errorAt:now`; any other value sets `locked:true` and the clamped progress.
Returns the record, the number of notification attempts, and the
response. -/
def progressHandler (token? progress? : Option String) (doc? : Option MovieDoc)
    (now : Int) : Option MovieDoc × Nat × HttpResponse :=
  let falsy : Option String → Bool := fun o =>
    match o with
    | none => true
    | some s => s = ""
  if falsy token? || falsy progress? then
    (doc?, 0, ⟨400, some "MISSING_PARAMETERS", none⟩)
  else if progress? = some "100" then
    let doc1 := doc?.map (fun d =>
      { d with locked := false, downloadedAt := some now, progress := some (some 100) })
    match doc1 with
    | none => (none, 0, ⟨404, some "DOCUMENT_NOT_FOUND", none⟩)
    | some d => (some d, 1, ⟨200, none, none⟩)
  else if progress? = some "-1" then
    (doc?.map (fun d =>
      { d with locked := false, progress := some (some (-1)),
               downloadedAt := none, errorAt := some now }),
     0, ⟨200, none, none⟩)
  else
    (doc?.map (fun d =>
      { d with locked := true,
               progress := some (jsClamp (jsParseInt (progress?.getD "")) 0 100) }),
     0, ⟨200, none, none⟩)

/-! ## Interleaving model of lease acquisition

`download.ts` acquires the per-token lock with two separate awaited
storage operations: `findOne` plus the `locked` test (lines 131-148), and
only later `updateOne({token}, {$set: {locked: true}})` (line 167).
Between the two, operations of a concurrent request for the same token may
be served by the store.  The machine below has one shared `locked` flag
(the persisted field) and two sessions, each advancing through the two
steps exactly as the handler does: the read step passes the contention
check iff `locked` is false at that moment; the write step then sets
`locked`. -/

inductive SessionPhase
  | pending
  | passedCheck
  | holding
  | rejected
deriving DecidableEq, Repr

structure LockRace where
  locked : Bool
  s1 : SessionPhase
  s2 : SessionPhase
deriving DecidableEq, Repr

inductive RaceAct
  | read1
  | read2
  | write1
  | write2
deriving DecidableEq, Repr

def raceStep (st : LockRace) : RaceAct → LockRace
  | .read1 =>
    if st.s1 = .pending then
      { st with s1 := if st.locked then .rejected else .passedCheck }
    else st
  | .read2 =>
    if st.s2 = .pending then
      { st with s2 := if st.locked then .rejected else .passedCheck }
    else st
  | .write1 =>
    if st.s1 = .passedCheck then { st with locked := true, s1 := .holding } else st
  | .write2 =>
    if st.s2 = .passedCheck then { st with locked := true, s2 := .holding } else st

def raceRun (st : LockRace) (acts : List RaceAct) : LockRace :=
  acts.foldl raceStep st

/-! ## Sample documents used as concrete inputs -/

/-- A freshly issued token record: unlocked, not completed, empty
coverage. -/
def sampleFresh : MovieDoc :=
  ⟨"kunde@example.ch", false, none, some [], none, none⟩

/-- A completed token record: `downloadedAt` set (at instant 1), locked
permanently, full coverage of a 1000-byte file. -/
def sampleCompleted : MovieDoc :=
  ⟨"kunde@example.ch", true, some 1, some [⟨0, 999⟩], none, none⟩

/-! ## Claim theorems -/

/-- C1: lease acquisition in `download.ts` is NOT one atomic conditional
write: the contention check (`findOne` + `locked` test, lines 131-148) and
the lock write (`updateOne {$set {locked: true}}`, line 167) are two
separate observable storage steps.  In the interleaving
read1, read2, write1, write2 from an unlocked record, both concurrent
sessions pass the contention check and both end up holding the lock,
refuting the at-most-one-holder property. -/
theorem lockAcquire_check_then_act_race :
    (raceRun ⟨false, .pending, .pending⟩ [.read1, .read2, .write1, .write2]).s1 =
      .holding ∧
    (raceRun ⟨false, .pending, .pending⟩ [.read1, .read2, .write1, .write2]).s2 =
      .holding := by decide

/-- C3: the range recorded after a stream is the REQUESTED range
`{start, end: safeEnd}` (`download.ts` line 239), not the delivered
sub-range: the finish handler's result does not depend on the number of
flushed bytes at all; concretely, after a request for `[0,499]` of which
only 200 bytes reached the client, coverage records `[[0,499]]`, not
`[[0,199]]`.  Moreover the disconnect handler records nothing: it only
clears `locked`. -/
theorem finishRange_ignores_bytesFlushed :
    (∀ (start safeEnd b b' fileSize now : Int) (d : Option MovieDoc),
      onFinishRange start safeEnd b fileSize d now =
        onFinishRange start safeEnd b' fileSize d now) ∧
    (onFinishRange 0 499 200 1000 (some sampleFresh) 5).1 =
      some { sampleFresh with partialRanges := some [⟨0, 499⟩], locked := false } ∧
    [(⟨0, 499⟩ : ByteRange)] ≠ [⟨0, 199⟩] ∧
    onClientClose false (some sampleFresh) = some { sampleFresh with locked := false } := by
  refine ⟨?_, by decide, by decide, by decide⟩
  intro start safeEnd b b' fileSize now d
  rfl

/-- C4: `download.ts` has no 416 path.  For `Range: bytes=2000-3000` on a
1000-byte resource and a fresh record, the handler first writes
`locked := true` and then answers 206 with
`Content-Range: bytes 2000-999/1000` — not 416 with `bytes */1000`, and
the record is NOT left unchanged. -/
theorem rangeBeyondEnd_serves206_and_locks :
    onRequestPhase (some "tok") (some sampleFresh) true 1000 (some "bytes=2000-3000") =
      (⟨206, none, some (some 2000, some 999, 1000)⟩,
        some { sampleFresh with locked := true }) ∧
    (onRequestPhase (some "tok") (some sampleFresh) true 1000
      (some "bytes=2000-3000")).1.status ≠ 416 ∧
    (onRequestPhase (some "tok") (some sampleFresh) true 1000
      (some "bytes=2000-3000")).2 ≠ some sampleFresh := by decide

/-- C5: the completion notification is NOT guarded: there is no
`notifiedAt` field in the record at all, and posting `progress=100` twice
for the same (already completed) token makes `download_success.ts` attempt
the notification once per request — two dispatches for one token. -/
theorem progress100_notifies_repeatedly :
    (progressHandler (some "tok") (some "100") (some sampleCompleted) 2).2.1 = 1 ∧
    (progressHandler (some "tok") (some "100")
        (progressHandler (some "tok") (some "100") (some sampleCompleted) 2).1 3).2.1
      = 1 := by decide

/-- C6: a `Completed` record is NOT immutable: posting `progress=-1` to
`download_success.ts` (lines 64-74) sets `downloadedAt` back to `null`,
unlocks the record and stamps `errorAt` — mutating a completed record in
fields other than a notification marker. -/
theorem progressNeg1_resets_completed :
    progressHandler (some "tok") (some "-1") (some sampleCompleted) 2 =
      (some { sampleCompleted with locked := false, progress := some (some (-1)), downloadedAt := none, errorAt := some 2 },
       0, ⟨200, none, none⟩) ∧
    ((progressHandler (some "tok") (some "-1") (some sampleCompleted) 2).1.bind
        (fun d => d.downloadedAt)) = none ∧
    sampleCompleted.downloadedAt = some 1 := by decide

/-- C8 (amended): a request for a locked, not-yet-completed token is
answered with status 400 (not 409) and error `DOWNLOAD_IN_PROGRESS`, and
the persisted record is unchanged. -/
theorem lockedToken_responds400_unchanged (t : String) (ht : ¬ t = "")
    (doc : MovieDoc) (hD : doc.downloadedAt = none) (hL : doc.locked = true)
    (fileFound : Bool) (fileSize : Int) (rangeHeader : Option String) :
    onRequestPhase (some t) (some doc) fileFound fileSize rangeHeader =
      (⟨400, some "DOWNLOAD_IN_PROGRESS", none⟩, some doc) := by
  simp [onRequestPhase, ht, hD, hL]

theorem lockedToken_responds400_unchanged_witness :
    onRequestPhase (some "tok") (some { sampleFresh with locked := true }) true 1000
        none =
      (⟨400, some "DOWNLOAD_IN_PROGRESS", none⟩,
        some { sampleFresh with locked := true }) :=
  lockedToken_responds400_unchanged "tok" (by decide)
    { sampleFresh with locked := true } (by decide) (by decide) true 1000 none

/-- C8 counterexample: the handler answers a locked token with status 400,
not 409 as claimed. -/
theorem lockedToken_status_not409 :
    (onRequestPhase (some "tok") (some { sampleFresh with locked := true }) true 1000
        none).1.status = 400 ∧
    (onRequestPhase (some "tok") (some { sampleFresh with locked := true }) true 1000
        none).1.status ≠ 409 := by decide

/-- C9: any request presenting a non-empty token whose record has
`downloadedAt` set is answered 403 `DOWNLOAD_ALREADY_COMPLETED`, whatever
the Range header, the lock flag or the file lookup, and the record is
returned unchanged (the check precedes the lock write). -/
theorem completedToken_responds403_unmutated (t : String) (ht : ¬ t = "")
    (doc : MovieDoc) (d : Int) (hd : doc.downloadedAt = some d)
    (fileFound : Bool) (fileSize : Int) (rangeHeader : Option String) :
    onRequestPhase (some t) (some doc) fileFound fileSize rangeHeader =
      (⟨403, some "DOWNLOAD_ALREADY_COMPLETED", none⟩, some doc) := by
  simp [onRequestPhase, ht, hd]

theorem completedToken_responds403_unmutated_witness :
    onRequestPhase (some "tok") (some sampleCompleted) true 1000
        (some "bytes=0-499") =
      (⟨403, some "DOWNLOAD_ALREADY_COMPLETED", none⟩, some sampleCompleted) :=
  completedToken_responds403_unmutated "tok" (by decide) sampleCompleted 1 (by decide)
    true 1000 (some "bytes=0-499")

end Heuried
